import Mathlib

/-!
Shallow embedding of `assignment-1/producer_consumer.py`.

The program runs two threads over a shared `queue.Queue(maxsize)`:

* the producer iterates `self.source_container`, calls `shared_queue.put(item)`
  (blocking while the queue is full), then under `self.lock` increments
  `items_produced`; after the loop it puts the sentinel `None` once;
* the consumer loops on `shared_queue.get()` (blocking while empty); on `None`
  it calls `task_done()` and breaks; otherwise, under `self.lock`, it appends
  the item to `destination_container` and increments `items_consumed`, then
  calls `task_done()`;
* `wait_completion` joins both threads and then calls `shared_queue.join()`,
  which unblocks exactly when the queue's unfinished-task counter is zero.

We model a Python value travelling through the pipeline as `Option α`:
`some v` is an ordinary object and `none` is the Python literal `None`
(which the producer also uses as the sentinel).  Each lock-protected block,
each `put`, each `get` and each `task_done` is one atomic step; the two
threads interleave nondeterministically via a schedule (a list of choices).
Python's `queue.Queue` treats `maxsize ≤ 0` as an unbounded queue, and
`put` blocks only while `0 < maxsize` and `qsize() ≥ maxsize`; `canPut`
reproduces exactly that condition.

Ghost history fields (`putLog`, `getLog`, `ackCount`) record the sequence of
values ever enqueued, the sequence ever dequeued, and the number of
`task_done` calls; they never influence a step.
-/

namespace ProducerConsumer

/-- Program counter of the producer thread.
`put rest`: about to call `shared_queue.put` (on the head of `rest`, or on the
sentinel `None` when `rest` is empty); `incr rest`: just put an item and about
to increment `items_produced` under the lock, with `rest` still to produce;
`done`: the thread function returned. -/
inductive PState (α : Type) where
  | put (rest : List (Option α))
  | incr (rest : List (Option α))
  | done
deriving DecidableEq

/-- Program counter of the consumer thread.
`idle`: about to call `shared_queue.get()`; `got item`: holding a dequeued
item, about to branch on the sentinel test; `ack`: appended a real item and
about to call `task_done()`; `done`: broke out of the loop. -/
inductive CState (α : Type) where
  | idle
  | got (item : Option α)
  | ack
  | done
deriving DecidableEq

/-- The shared state of a `ProducerConsumer` run: the object's fields
(`source_container`, `shared_queue` buffer, the queue's unfinished-task
counter, `destination_container`, `items_produced`, `items_consumed`,
the queue's `maxsize`), the two thread program counters, and ghost history
fields `putLog` (all values ever enqueued, in order), `getLog` (all values
ever dequeued, in order) and `ackCount` (number of `task_done()` calls). -/
@[ext] structure PCState (α : Type) where
  source : List (Option α)
  maxsize : Int
  buffer : List (Option α)
  unfinished : Nat
  destination : List (Option α)
  produced : Nat
  consumed : Nat
  prod : PState α
  cons : CState α
  putLog : List (Option α)
  getLog : List (Option α)
  ackCount : Nat
deriving DecidableEq

variable {α : Type}

/-- `ProducerConsumer.__init__(source_data, max_queue_size)`: stores a copy of
`source_data`, an empty destination, a fresh `queue.Queue(maxsize)` and zeroed
counters; the thread functions start at the top of their loops. -/
def init (src : List (Option α)) (maxsize : Int) : PCState α :=
  { source := src
    maxsize := maxsize
    buffer := []
    unfinished := 0
    destination := []
    produced := 0
    consumed := 0
    prod := PState.put src
    cons := CState.idle
    putLog := []
    getLog := []
    ackCount := 0 }

/-- `queue.Queue.put` proceeds unless `0 < maxsize` and `qsize() ≥ maxsize`
(Python treats `maxsize ≤ 0` as an unbounded queue). -/
def canPut (s : PCState α) : Bool :=
  decide (s.maxsize ≤ 0) || decide ((s.buffer.length : Int) < s.maxsize)

/-- One atomic step of the producer thread, if it can move: a blocking or
finished producer yields `none`.  `put x` appends to the queue and increments
the unfinished-task counter; the lock-protected block increments
`items_produced`; after the loop the sentinel `None` is put once. -/
def prodStep (s : PCState α) : Option (PCState α) :=
  match s.prod with
  | PState.put (x :: xs) =>
      if canPut s then
        some { s with buffer := s.buffer ++ [x]
                      unfinished := s.unfinished + 1
                      prod := PState.incr xs
                      putLog := s.putLog ++ [x] }
      else none
  | PState.put [] =>
      if canPut s then
        some { s with buffer := s.buffer ++ [none]
                      unfinished := s.unfinished + 1
                      prod := PState.done
                      putLog := s.putLog ++ [none] }
      else none
  | PState.incr xs =>
      some { s with produced := s.produced + 1, prod := PState.put xs }
  | PState.done => none

/-- One atomic step of the consumer thread, if it can move: a blocked or
finished consumer yields `none`.  `get` removes the queue head; on the
sentinel the consumer calls `task_done()` and breaks; on a real item the
lock-protected block appends it to the destination and increments
`items_consumed`, and then `task_done()` is called. -/
def consStep (s : PCState α) : Option (PCState α) :=
  match s.cons with
  | CState.idle =>
      match s.buffer with
      | [] => none
      | x :: rest =>
          some { s with buffer := rest
                        cons := CState.got x
                        getLog := s.getLog ++ [x] }
  | CState.got none =>
      some { s with unfinished := s.unfinished - 1
                    ackCount := s.ackCount + 1
                    cons := CState.done }
  | CState.got (some v) =>
      some { s with destination := s.destination ++ [some v]
                    consumed := s.consumed + 1
                    cons := CState.ack }
  | CState.ack =>
      some { s with unfinished := s.unfinished - 1
                    ackCount := s.ackCount + 1
                    cons := CState.idle }
  | CState.done => none

/-- A scheduling choice: which thread the scheduler runs next. -/
inductive Choice where
  | prod
  | cons
deriving DecidableEq

/-- Run the chosen thread for one atomic step; a thread that is blocked (full
queue on `put`, empty queue on `get`) or finished leaves the state unchanged. -/
def step1 (c : Choice) (s : PCState α) : PCState α :=
  match c with
  | Choice.prod => (prodStep s).getD s
  | Choice.cons => (consStep s).getD s

/-- Run a whole schedule, one atomic step per entry. -/
def runTrace (tr : List Choice) (s : PCState α) : PCState α :=
  tr.foldl (fun t c => step1 c t) s

/-- `t` is reachable from `s` by running the two threads under some schedule. -/
def Reachable (s t : PCState α) : Prop :=
  ∃ tr : List Choice, runTrace tr s = t

/-- The state in which `wait_completion` has returned: both thread functions
ran to completion (`join`) and `shared_queue.join()` unblocked, i.e. the
unfinished-task counter is zero. -/
def Completed (s : PCState α) : Prop :=
  s.prod = PState.done ∧ s.cons = CState.done ∧ s.unfinished = 0

instance (s : PCState α) [DecidableEq α] : Decidable (Completed s) := by
  unfold Completed; infer_instance

/-- Shape of the producer's progress: the values enqueued so far (`putLog`)
are exactly the consumed prefix of the source, `items_produced` lags the
enqueue count by one while the lock-protected increment is pending, and once
the thread is done the enqueue history is the whole source followed by the
lone sentinel. -/
def ProdOk (S : List (Option α)) (s : PCState α) : Prop :=
  match s.prod with
  | PState.put rest => s.putLog ++ rest = S ∧ s.produced = s.putLog.length
  | PState.incr rest => s.putLog ++ rest = S ∧ s.produced + 1 = s.putLog.length
  | PState.done => s.putLog = S ++ [none] ∧ s.produced = S.length

/-- Shape of the consumer's progress: the dequeue history (`getLog`) is the
destination plus the item currently in hand (the sentinel, once done), and the
`task_done` count lags the dequeue count by exactly one while an
acknowledgement is pending. -/
def ConsOk (s : PCState α) : Prop :=
  match s.cons with
  | CState.idle =>
      s.getLog = s.destination ∧ s.ackCount = s.getLog.length
  | CState.got it =>
      s.getLog = s.destination ++ [it] ∧ s.ackCount + 1 = s.getLog.length
  | CState.ack =>
      s.getLog = s.destination ∧ s.ackCount + 1 = s.getLog.length
  | CState.done =>
      s.getLog = s.destination ++ [none] ∧ s.ackCount = s.getLog.length

/-- Global invariant of every run started from `init S m`: the object fields
are never rebound, the queue is the enqueue history minus the dequeue history
(FIFO), both threads are in a consistent shape, `items_consumed` always equals
the destination length, the unfinished-task counter equals puts minus
acknowledgements, the buffer respects the capacity whenever `1 ≤ m`, and the
destination never holds `None`. -/
structure Inv (S : List (Option α)) (m : Int) (s : PCState α) : Prop where
  src : s.source = S
  msize : s.maxsize = m
  fifo : s.putLog = s.getLog ++ s.buffer
  pok : ProdOk S s
  cok : ConsOk s
  ccount : s.consumed = s.destination.length
  acct : s.unfinished + s.ackCount = s.putLog.length
  bound : 1 ≤ m → (s.buffer.length : Int) ≤ m
  nodest : (none : Option α) ∉ s.destination

theorem inv_init (S : List (Option α)) (m : Int) : Inv S m (init S m) := by
  refine ⟨rfl, rfl, rfl, ?_, ?_, rfl, rfl, ?_, ?_⟩ <;>
    simp [ProdOk, ConsOk, init]
  omega

theorem inv_step1 {S : List (Option α)} {m : Int} {s : PCState α}
    (h : Inv S m s) (c : Choice) : Inv S m (step1 c s) := by
  obtain ⟨hsrc, hms, hfifo, hpok, hcok, hcc, hacct, hbound, hnod⟩ := h
  have hlen : s.putLog.length = s.getLog.length + s.buffer.length := by
    rw [hfifo]; simp
  cases c with
  | prod =>
    show Inv S m ((prodStep s).getD s)
    cases hp : s.prod with
    | put rest =>
      cases rest with
      | nil =>
        by_cases hcan : canPut s = true
        · simp only [ProdOk, hp] at hpok
          simp only [prodStep, hp, hcan, if_true, Option.getD_some]
          simp only [canPut, hms, Bool.or_eq_true, decide_eq_true_eq] at hcan
          refine ⟨hsrc, hms, ?_, ?_, hcok, hcc, ?_, ?_, hnod⟩
          · rw [hfifo, List.append_assoc]
          · simp only [ProdOk]
            simp only [List.append_nil] at hpok
            simp [hpok.1, hpok.2]
          · simp; omega
          · intro h1
            have hb := hbound h1
            simp only [List.length_append, List.length_singleton]
            push_cast at hb ⊢
            omega
        · rw [Bool.not_eq_true] at hcan
          have hns : prodStep s = none := by
            simp [prodStep, hp, hcan]
          rw [hns]
          exact ⟨hsrc, hms, hfifo, hpok, hcok, hcc, hacct, hbound, hnod⟩
      | cons x xs =>
        by_cases hcan : canPut s = true
        · simp only [ProdOk, hp] at hpok
          simp only [prodStep, hp, hcan, if_true, Option.getD_some]
          simp only [canPut, hms, Bool.or_eq_true, decide_eq_true_eq] at hcan
          refine ⟨hsrc, hms, ?_, ?_, hcok, hcc, ?_, ?_, hnod⟩
          · rw [hfifo, List.append_assoc]
          · simp only [ProdOk]
            constructor
            · rw [List.append_assoc]; simpa using hpok.1
            · simp [hpok.2]
          · simp; omega
          · intro h1
            have hb := hbound h1
            simp only [List.length_append, List.length_singleton]
            push_cast at hb ⊢
            omega
        · rw [Bool.not_eq_true] at hcan
          have hns : prodStep s = none := by
            simp [prodStep, hp, hcan]
          rw [hns]
          exact ⟨hsrc, hms, hfifo, hpok, hcok, hcc, hacct, hbound, hnod⟩
    | incr rest =>
      simp only [ProdOk, hp] at hpok
      simp only [prodStep, hp, Option.getD_some]
      refine ⟨hsrc, hms, hfifo, ?_, hcok, hcc, hacct, hbound, hnod⟩
      simp only [ProdOk]
      exact hpok
    | done =>
      have hns : prodStep s = none := by simp [prodStep, hp]
      rw [hns]
      exact ⟨hsrc, hms, hfifo, hpok, hcok, hcc, hacct, hbound, hnod⟩
  | cons =>
    show Inv S m ((consStep s).getD s)
    cases hc : s.cons with
    | idle =>
      simp only [ConsOk, hc] at hcok
      cases hb : s.buffer with
      | nil =>
        have hns : consStep s = none := by simp [consStep, hc, hb]
        rw [hns]
        show Inv S m s
        refine ⟨hsrc, hms, hfifo, hpok, ?_, hcc, hacct, hbound, hnod⟩
        simp only [ConsOk, hc]
        exact hcok
      | cons x rest =>
        simp only [consStep, hc, hb, Option.getD_some]
        refine ⟨hsrc, hms, ?_, hpok, ?_, hcc, hacct, ?_, hnod⟩
        · rw [hfifo, hb, List.append_assoc]; rfl
        · simp only [ConsOk]
          refine ⟨by rw [hcok.1], ?_⟩
          simp [hcok.2]
        · intro h1
          have h2 := hbound h1
          rw [hb] at h2
          simp only [List.length_cons] at h2
          push_cast at h2 ⊢
          omega
    | got it =>
      cases it with
      | none =>
        simp only [ConsOk, hc] at hcok
        simp only [consStep, hc, Option.getD_some]
        refine ⟨hsrc, hms, hfifo, hpok, ?_, hcc, ?_, hbound, hnod⟩
        · simp only [ConsOk]
          exact ⟨hcok.1, by omega⟩
        · have h2 := hcok.2
          change s.unfinished - 1 + (s.ackCount + 1) = s.putLog.length
          omega
      | some v =>
        simp only [ConsOk, hc] at hcok
        simp only [consStep, hc, Option.getD_some]
        refine ⟨hsrc, hms, hfifo, hpok, ?_, ?_, hacct, hbound, ?_⟩
        · simp only [ConsOk]
          exact hcok
        · simp [hcc]
        · simp [hnod]
    | ack =>
      simp only [ConsOk, hc] at hcok
      simp only [consStep, hc, Option.getD_some]
      refine ⟨hsrc, hms, hfifo, hpok, ?_, hcc, ?_, hbound, hnod⟩
      · simp only [ConsOk]
        exact ⟨hcok.1, by omega⟩
      · have h2 := hcok.2
        change s.unfinished - 1 + (s.ackCount + 1) = s.putLog.length
        omega
    | done =>
      have hns : consStep s = none := by simp [consStep, hc]
      rw [hns]
      exact ⟨hsrc, hms, hfifo, hpok, hcok, hcc, hacct, hbound, hnod⟩

theorem inv_runTrace {S : List (Option α)} {m : Int}
    (tr : List Choice) {s : PCState α} (h : Inv S m s) :
    Inv S m (runTrace tr s) := by
  induction tr generalizing s with
  | nil => exact h
  | cons c tr ih => exact ih (inv_step1 h c)

theorem inv_reachable {S : List (Option α)} {m : Int} {s : PCState α}
    (h : Reachable (init S m) s) : Inv S m s := by
  obtain ⟨tr, rfl⟩ := h
  exact inv_runTrace tr (inv_init S m)

/-- Whatever the producer has enqueued so far is a prefix of the full enqueue
history `S ++ [None]`. -/
theorem putLog_extends {S : List (Option α)} {m : Int} {s : PCState α}
    (h : Inv S m s) : ∃ r, s.putLog ++ r = S ++ [none] := by
  have hpok := h.pok
  cases hp : s.prod with
  | put rest =>
    simp only [ProdOk, hp] at hpok
    exact ⟨rest ++ [none], by rw [← List.append_assoc, hpok.1]⟩
  | incr rest =>
    simp only [ProdOk, hp] at hpok
    exact ⟨rest ++ [none], by rw [← List.append_assoc, hpok.1]⟩
  | done =>
    simp only [ProdOk, hp] at hpok
    exact ⟨[], by rw [List.append_nil, hpok.1]⟩

/-- Whatever the consumer has dequeued so far is a prefix of `S ++ [None]`. -/
theorem getLog_extends {S : List (Option α)} {m : Int} {s : PCState α}
    (h : Inv S m s) : ∃ r, s.getLog ++ r = S ++ [none] := by
  obtain ⟨r, hr⟩ := putLog_extends h
  exact ⟨s.buffer ++ r, by rw [← List.append_assoc, ← h.fifo, hr]⟩

/-- A prefix of `S ++ [None]` that contains `None` is all of `S ++ [None]`,
provided `S` itself is `None`-free. -/
theorem eq_append_sentinel_of_mem {S A r : List (Option α)}
    (hS : (none : Option α) ∉ S) (hmem : (none : Option α) ∈ A)
    (hEq : A ++ r = S ++ [none]) : A = S ++ [none] := by
  have hlen : A.length + r.length = S.length + 1 := by
    have := congrArg List.length hEq
    simpa using this
  rcases Nat.lt_or_ge A.length (S.length + 1) with hlt | hge
  · exfalso
    have hle : A.length ≤ S.length := by omega
    have hA : A = (S ++ [none]).take A.length := by
      rw [← hEq, List.take_left]
    rw [List.take_append_of_le_length hle] at hA
    rw [hA] at hmem
    exact hS (List.take_subset _ _ hmem)
  · have hr : r = [] := by
      have : r.length = 0 := by omega
      exact List.length_eq_zero.mp this
    rw [hr, List.append_nil] at hEq
    exact hEq

/-- Once the consumer has dequeued the sentinel, its dequeue history is the
complete stream `S ++ [None]`. -/
theorem getLog_sentinel {S : List (Option α)} {m : Int} {s : PCState α}
    (h : Inv S m s) (hS : (none : Option α) ∉ S)
    (hmem : (none : Option α) ∈ s.getLog) : s.getLog = S ++ [none] := by
  obtain ⟨r, hr⟩ := getLog_extends h
  exact eq_append_sentinel_of_mem hS hmem hr

/-- The producer thread never touches the dequeue history. -/
theorem prod_getLog (s : PCState α) : (step1 Choice.prod s).getLog = s.getLog := by
  show ((prodStep s).getD s).getLog = s.getLog
  cases hp : s.prod with
  | put rest =>
    cases rest with
    | nil =>
      by_cases hcan : canPut s = true
      · simp [prodStep, hp, hcan]
      · rw [Bool.not_eq_true] at hcan
        simp [prodStep, hp, hcan]
    | cons x xs =>
      by_cases hcan : canPut s = true
      · simp [prodStep, hp, hcan]
      · rw [Bool.not_eq_true] at hcan
        simp [prodStep, hp, hcan]
  | incr rest => simp [prodStep, hp]
  | done => simp [prodStep, hp]

/-- After the sentinel has been dequeued the consumer never calls `get` again:
no step of either thread extends the dequeue history any further. -/
theorem getLog_stable {S : List (Option α)} {m : Int} {s : PCState α}
    (h : Inv S m s) (hmem : (none : Option α) ∈ s.getLog) (c : Choice) :
    (step1 c s).getLog = s.getLog := by
  cases c with
  | prod => exact prod_getLog s
  | cons =>
    show ((consStep s).getD s).getLog = s.getLog
    cases hc : s.cons with
    | idle =>
      exfalso
      have hcok := h.cok
      simp only [ConsOk, hc] at hcok
      rw [hcok.1] at hmem
      exact h.nodest hmem
    | got it =>
      cases it with
      | none => simp [consStep, hc]
      | some v => simp [consStep, hc]
    | ack => simp [consStep, hc]
    | done => simp [consStep, hc]

/-- The enqueue history never holds more than one sentinel, and before the
producer finishes it holds none at all. -/
theorem putLog_sentinel_count [DecidableEq α] {S : List (Option α)} {m : Int}
    {s : PCState α} (h : Inv S m s) (hS : (none : Option α) ∉ S) :
    s.putLog.count (none : Option α) ≤ 1 ∧
      (s.prod ≠ PState.done → (none : Option α) ∉ s.putLog) := by
  have hpok := h.pok
  have hScount : S.count (none : Option α) = 0 :=
    List.count_eq_zero.mpr hS
  cases hp : s.prod with
  | put rest =>
    simp only [ProdOk, hp] at hpok
    have hc := congrArg (List.count (none : Option α)) hpok.1
    rw [List.count_append] at hc
    refine ⟨by omega, fun _ hmem => ?_⟩
    have : 0 < s.putLog.count (none : Option α) :=
      List.count_pos_iff.mpr hmem
    omega
  | incr rest =>
    simp only [ProdOk, hp] at hpok
    have hc := congrArg (List.count (none : Option α)) hpok.1
    rw [List.count_append] at hc
    refine ⟨by omega, fun _ hmem => ?_⟩
    have : 0 < s.putLog.count (none : Option α) :=
      List.count_pos_iff.mpr hmem
    omega
  | done =>
    simp only [ProdOk, hp] at hpok
    refine ⟨?_, fun hne => absurd rfl hne⟩
    rw [hpok.1, List.count_append, hScount]
    simp

/-- Full characterization of any state in which `wait_completion` has
returned: the queue is empty, the whole stream `S ++ [None]` was enqueued,
dequeued and acknowledged, the destination is exactly `S`, and both counters
equal the source length. -/
theorem completed_state {S : List (Option α)} {m : Int} {s : PCState α}
    (h : Inv S m s) (hc : Completed s) :
    s.putLog = S ++ [none] ∧ s.getLog = S ++ [none] ∧ s.buffer = [] ∧
      s.destination = S ∧ s.produced = S.length ∧ s.consumed = S.length ∧
      s.ackCount = S.length + 1 := by
  obtain ⟨hp, hcn, hu⟩ := hc
  have hpok := h.pok
  simp only [ProdOk, hp] at hpok
  have hcok := h.cok
  simp only [ConsOk, hcn] at hcok
  have hacct := h.acct
  have hfifo := h.fifo
  have hlen : s.putLog.length = s.getLog.length + s.buffer.length := by
    rw [hfifo]; simp
  have hack : s.ackCount = s.putLog.length := by omega
  have hbuf : s.buffer = [] := by
    have : s.buffer.length = 0 := by omega
    exact List.length_eq_zero.mp this
  rw [hbuf, List.append_nil] at hfifo
  have hgl : s.getLog = S ++ [none] := by rw [← hfifo, hpok.1]
  have hdest : s.destination = S := by
    have h2 : s.destination ++ [none] = S ++ [none] := by
      rw [← hcok.1, hgl]
    have h3 := congrArg List.dropLast h2
    simpa [List.dropLast_concat] using h3
  refine ⟨hpok.1, hgl, hbuf, hdest, hpok.2, ?_, ?_⟩
  · rw [h.ccount, hdest]
  · rw [hack, hpok.1]
    simp

theorem runTrace_append (t₁ t₂ : List Choice) (s : PCState α) :
    runTrace (t₁ ++ t₂) s = runTrace t₂ (runTrace t₁ s) := by
  simp [runTrace, List.foldl_append]

/-- A canonical schedule that drives a run to completion: each source item is
produced, counted, dequeued, appended and acknowledged before the next one,
then the sentinel is produced, dequeued and acknowledged. -/
def sched : List (Option α) → List Choice
  | [] => [Choice.prod, Choice.cons, Choice.cons]
  | _ :: xs =>
      [Choice.prod, Choice.prod, Choice.cons, Choice.cons, Choice.cons] ++
        sched xs

theorem canPut_of_empty {s : PCState α} (h : s.buffer = []) :
    canPut s = true := by
  rcases le_or_lt s.maxsize 0 with h0 | h0 <;> simp [canPut, h, h0]

theorem runTrace_item {s : PCState α} {v : α} {xs : List (Option α)}
    (hp : s.prod = PState.put (some v :: xs)) (hc : s.cons = CState.idle)
    (hb : s.buffer = []) :
    runTrace [Choice.prod, Choice.prod, Choice.cons, Choice.cons, Choice.cons] s =
      { s with prod := PState.put xs
               produced := s.produced + 1
               destination := s.destination ++ [some v]
               consumed := s.consumed + 1
               putLog := s.putLog ++ [some v]
               getLog := s.getLog ++ [some v]
               ackCount := s.ackCount + 1 } := by
  have hcan : canPut s = true := canPut_of_empty hb
  simp [runTrace, step1, prodStep, consStep, hp, hc, hb, hcan]

theorem runTrace_sentinel {s : PCState α}
    (hp : s.prod = PState.put []) (hc : s.cons = CState.idle)
    (hb : s.buffer = []) :
    runTrace [Choice.prod, Choice.cons, Choice.cons] s =
      { s with prod := PState.done
               cons := CState.done
               putLog := s.putLog ++ [none]
               getLog := s.getLog ++ [none]
               ackCount := s.ackCount + 1 } := by
  have hcan : canPut s = true := canPut_of_empty hb
  simp [runTrace, step1, prodStep, consStep, hp, hc, hb, hcan]

theorem runTrace_sched (xs : List (Option α)) :
    ∀ s : PCState α, (none : Option α) ∉ xs → s.prod = PState.put xs →
      s.cons = CState.idle → s.buffer = [] →
      runTrace (sched xs) s =
        { s with prod := PState.done
                 cons := CState.done
                 destination := s.destination ++ xs
                 produced := s.produced + xs.length
                 consumed := s.consumed + xs.length
                 putLog := s.putLog ++ xs ++ [none]
                 getLog := s.getLog ++ xs ++ [none]
                 ackCount := s.ackCount + xs.length + 1 } := by
  induction xs with
  | nil =>
    intro s _ hp hc hb
    rw [sched, runTrace_sentinel hp hc hb]
    simp
  | cons x xs ih =>
    intro s hnone hp hc hb
    obtain ⟨v, rfl⟩ : ∃ v, x = some v := by
      cases x with
      | none => exact absurd (List.mem_cons_self _ _) hnone
      | some v => exact ⟨v, rfl⟩
    have hx : (none : Option α) ∉ xs := fun hmem =>
      hnone (List.mem_cons_of_mem _ hmem)
    have hrun := ih
      { s with prod := PState.put xs
               produced := s.produced + 1
               destination := s.destination ++ [some v]
               consumed := s.consumed + 1
               putLog := s.putLog ++ [some v]
               getLog := s.getLog ++ [some v]
               ackCount := s.ackCount + 1 } hx rfl hc hb
    rw [sched, runTrace_append, runTrace_item hp hc hb, hrun]
    apply PCState.ext <;> simp [List.append_assoc] <;> try omega

/-- For a `None`-free source, some schedule drives the run from `init` all
the way to a state in which `wait_completion` returns. -/
theorem exists_completed_run (S : List (Option α)) (m : Int)
    (hS : (none : Option α) ∉ S) :
    ∃ s : PCState α, Reachable (init S m) s ∧ Completed s := by
  refine ⟨runTrace (sched S) (init S m), ⟨sched S, rfl⟩, ?_⟩
  rw [runTrace_sched S (init S m) hS rfl rfl rfl]
  exact ⟨rfl, rfl, rfl⟩

/-- The `None`-free block before the first `None` of `A ++ None :: t` is
exactly `A`. -/
theorem takeWhile_of_append_none (A t : List (Option α))
    (hA : (none : Option α) ∉ A) :
    (A ++ none :: t).takeWhile (fun x => x.isSome) = A := by
  induction A with
  | nil => simp
  | cons a as ih =>
    cases a with
    | none => exact absurd (List.mem_cons_self _ _) hA
    | some v =>
      simp only [List.cons_append, List.takeWhile_cons, Option.isSome_some,
        if_true]
      rw [ih (fun hmem => hA (List.mem_cons_of_mem _ hmem))]

/-- Appending the sentinel after a source that already contains `None` does
not change the `None`-free block at the front. -/
theorem takeWhile_append_sentinel {S : List (Option α)}
    (h : (none : Option α) ∈ S) :
    (S ++ [none]).takeWhile (fun x => x.isSome) =
      S.takeWhile (fun x => x.isSome) := by
  induction S with
  | nil => cases h
  | cons a as ih =>
    cases a with
    | none => simp [List.takeWhile_cons]
    | some v =>
      have h2 : (none : Option α) ∈ as := by simpa using h
      simp only [List.cons_append, List.takeWhile_cons, Option.isSome_some,
        if_true]
      rw [ih h2]

/-- C1: for every source sequence `S` of items other than the sentinel value
`None` and every capacity `≥ 1`, running the pipeline to completion (`start`
followed by `wait_completion`) yields a `destination_container` equal to `S`
element-for-element in the same order — no item dropped, duplicated, mutated
or reordered under any interleaving — and a completed run does exist. -/
theorem claim1_order_preservation (S : List (Option α)) (m : Int)
    (hm : 1 ≤ m) (hS : (none : Option α) ∉ S) :
    (∀ s : PCState α, Reachable (init S m) s → Completed s →
        s.destination = S) ∧
      ∃ s : PCState α, Reachable (init S m) s ∧ Completed s ∧
        s.destination = S := by
  constructor
  · intro s hr hc
    exact (completed_state (inv_reachable hr) hc).2.2.2.1
  · obtain ⟨s, hr, hc⟩ := exists_completed_run S m hS
    exact ⟨s, hr, hc, (completed_state (inv_reachable hr) hc).2.2.2.1⟩

theorem claim1_witness :
    (runTrace (sched [some 1, some 2]) (init [some (1 : Nat), some 2] 1)).destination
      = [some 1, some 2] :=
  (claim1_order_preservation [some 1, some 2] 1 (by decide) (by decide)).1
    (runTrace (sched [some 1, some 2]) (init [some (1 : Nat), some 2] 1))
    ⟨sched [some 1, some 2], rfl⟩ (by decide)

/-- C2: after the run completes, `items_produced = items_consumed = len S` for
every source sequence `S`, including the empty sequence, for which both
counters are `0` and the destination is empty. -/
theorem claim2_counter_convergence (S : List (Option α)) (m : Int)
    (hm : 1 ≤ m) (hS : (none : Option α) ∉ S) :
    ∀ s : PCState α, Reachable (init S m) s → Completed s →
      s.produced = S.length ∧ s.consumed = S.length ∧
        (S = [] → s.destination = []) := by
  intro s hr hc
  have h := completed_state (inv_reachable hr) hc
  exact ⟨h.2.2.2.2.1, h.2.2.2.2.2.1, fun hS0 => by rw [h.2.2.2.1, hS0]⟩

theorem claim2_witness :
    (runTrace (sched ([] : List (Option Nat))) (init ([] : List (Option Nat)) 5)).produced = 0 ∧
      (runTrace (sched ([] : List (Option Nat))) (init ([] : List (Option Nat)) 5)).consumed = 0 ∧
      (runTrace (sched ([] : List (Option Nat))) (init ([] : List (Option Nat)) 5)).destination = [] := by
  have h := claim2_counter_convergence ([] : List (Option Nat)) 5 (by decide)
    (by decide)
    (runTrace (sched ([] : List (Option Nat))) (init ([] : List (Option Nat)) 5))
    ⟨sched ([] : List (Option Nat)), rfl⟩ (by decide)
  exact ⟨h.1, h.2.1, h.2.2 rfl⟩

/-- C3: in every run over a `None`-free source the sentinel is enqueued at
most once at any instant, exactly once (strictly after the last real item)
once the producer is done — including the empty source, whose enqueue history
is the lone sentinel — and if the consumer ever dequeues the sentinel then it
is the last value it ever dequeues: the dequeue history is complete and no
step of either thread extends it. -/
theorem claim3_sentinel_protocol [DecidableEq α] (S : List (Option α))
    (m : Int) (hm : 1 ≤ m) (hS : (none : Option α) ∉ S) :
    ∀ s : PCState α, Reachable (init S m) s →
      s.putLog.count (none : Option α) ≤ 1 ∧
        (s.prod = PState.done → s.putLog = S ++ [none]) ∧
        ((none : Option α) ∈ s.getLog → s.getLog = S ++ [none]) ∧
        ((none : Option α) ∈ s.getLog →
          ∀ c : Choice, (step1 c s).getLog = s.getLog) := by
  intro s hr
  have h := inv_reachable hr
  refine ⟨(putLog_sentinel_count h hS).1, ?_,
    fun hmem => getLog_sentinel h hS hmem,
    fun hmem c => getLog_stable h hmem c⟩
  intro hp
  have hpok := h.pok
  simp only [ProdOk, hp] at hpok
  exact hpok.1

theorem claim3_witness :
    (runTrace (sched [some 4]) (init [some (4 : Nat)] 2)).putLog
      = [some 4] ++ [none] :=
  (claim3_sentinel_protocol [some 4] 2 (by decide) (by decide)
      (runTrace (sched [some 4]) (init [some (4 : Nat)] 2))
      ⟨sched [some 4], rfl⟩).2.1 (by decide)

/-- C4: the drain barrier of `wait_completion` (the `shared_queue.join()`
performed after both thread joins) never returns before every enqueued unit —
all real items and the sentinel — has been dequeued and acknowledged: in any
reachable state where both threads are done and the unfinished-task counter is
zero, the dequeue history equals the enqueue history, every put has been
acknowledged, and in particular the destination already holds every real item
of the source. -/
theorem claim4_drain_barrier (S : List (Option α)) (m : Int)
    (hm : 1 ≤ m) (hS : (none : Option α) ∉ S) :
    ∀ s : PCState α, Reachable (init S m) s → s.prod = PState.done →
      s.cons = CState.done → s.unfinished = 0 →
      s.getLog = s.putLog ∧ s.ackCount = s.putLog.length ∧
        s.destination = S := by
  intro s hr hp hc hu
  have h := completed_state (inv_reachable hr) ⟨hp, hc, hu⟩
  refine ⟨by rw [h.1, h.2.1], ?_, h.2.2.2.1⟩
  rw [h.2.2.2.2.2.2, h.1]
  simp

theorem claim4_witness :
    (runTrace (sched [some 7]) (init [some (7 : Nat)] 1)).destination
      = [some 7] :=
  (claim4_drain_barrier [some 7] 1 (by decide) (by decide)
      (runTrace (sched [some 7]) (init [some (7 : Nat)] 1))
      ⟨sched [some 7], rfl⟩ (by decide) (by decide) (by decide)).2.2

/-- C5: at every reachable state of a run with capacity ≥ 1 the number of
buffered values satisfies `0 ≤ buffered_count ≤ capacity`, and a `put` issued
while the buffer is full adds no value (and records no put) until a slot is
freed: the producer's step leaves the queue and the enqueue history
unchanged. -/
theorem claim5_bounded_buffer (S : List (Option α)) (m : Int) (hm : 1 ≤ m) :
    ∀ s : PCState α, Reachable (init S m) s →
      ((0 : Int) ≤ (s.buffer.length : Int) ∧ (s.buffer.length : Int) ≤ m) ∧
        (m ≤ (s.buffer.length : Int) →
          (step1 Choice.prod s).buffer = s.buffer ∧
            (step1 Choice.prod s).putLog = s.putLog) := by
  intro s hr
  have h := inv_reachable hr
  have hbnd := h.bound hm
  refine ⟨⟨by omega, hbnd⟩, ?_⟩
  intro hfull
  have hms := h.msize
  have hcan : canPut s = false := by
    simp only [canPut, hms, Bool.or_eq_false_iff, decide_eq_false_iff_not,
      not_lt, not_le]
    constructor <;> omega
  show ((prodStep s).getD s).buffer = s.buffer ∧
    ((prodStep s).getD s).putLog = s.putLog
  cases hp : s.prod with
  | put rest => cases rest <;> simp [prodStep, hp, hcan]
  | incr rest => simp [prodStep, hp]
  | done => simp [prodStep, hp]

theorem claim5_witness :
    (step1 Choice.prod (runTrace [Choice.prod] (init [some (1 : Nat), some 2] 1))).buffer
      = (runTrace [Choice.prod] (init [some (1 : Nat), some 2] 1)).buffer :=
  ((claim5_bounded_buffer [some 1, some 2] 1 (by decide)
      (runTrace [Choice.prod] (init [some (1 : Nat), some 2] 1))
      ⟨[Choice.prod], rfl⟩).2 (by decide)).1

/-- C6 as stated is false on the code: `__init__` performs no capacity
validation, so with capacity `0` the pipeline is constructed without any
configuration error, both workers run, and a run completes with one item
produced and consumed — producer and consumer activity does occur. -/
theorem claim6_counterexample :
    Completed (runTrace (sched [some 1]) (init [some (1 : Nat)] 0)) ∧
      (runTrace (sched [some 1]) (init [some (1 : Nat)] 0)).produced = 1 ∧
      (runTrace (sched [some 1]) (init [some (1 : Nat)] 0)).consumed = 1 := by
  decide

/-- C6 amended: for every non-positive capacity the constructor performs no
validation and raises no configuration error; Python's `queue.Queue` treats
`maxsize ≤ 0` as unbounded, so a `put` never blocks, the workers run
normally, and a completed run still transfers the whole source. -/
theorem claim6_amended (S : List (Option α)) (m : Int) (hm : m ≤ 0)
    (hS : (none : Option α) ∉ S) :
    (∀ s : PCState α, Reachable (init S m) s → canPut s = true) ∧
      ∃ s : PCState α, Reachable (init S m) s ∧ Completed s ∧
        s.destination = S := by
  constructor
  · intro s hr
    have hms := (inv_reachable hr).msize
    simp [canPut, hms, hm]
  · obtain ⟨s, hr, hc⟩ := exists_completed_run S m hS
    exact ⟨s, hr, hc, (completed_state (inv_reachable hr) hc).2.2.2.1⟩

theorem claim6_amended_witness :
    canPut (init [some (1 : Nat)] (-1)) = true :=
  (claim6_amended [some 1] (-1) (by decide) (by decide)).1
    (init [some (1 : Nat)] (-1)) ⟨[], rfl⟩

/-- C7: no pipeline operation mutates the source sequence: in every reachable
state of every run — in particular after completion — `source_container` is
element-for-element what it was at construction. -/
theorem claim7_source_unchanged (S : List (Option α)) (m : Int) :
    ∀ s : PCState α, Reachable (init S m) s → s.source = S :=
  fun _ hr => (inv_reachable hr).src

theorem claim7_witness :
    (runTrace (sched [some 3]) (init [some (3 : Nat)] 2)).source
      = [some 3] :=
  claim7_source_unchanged [some 3] 2
    (runTrace (sched [some 3]) (init [some (3 : Nat)] 2))
    ⟨sched [some 3], rfl⟩

/-- C8 as stated is false on the code: for the source `[None]` the run does
not terminate — no reachable state ever satisfies the completion condition of
`wait_completion`, because the leftover sentinel put is never acknowledged,
so `shared_queue.join()` blocks forever. -/
theorem claim8_counterexample :
    ¬ ∃ s : PCState Nat,
        Reachable (init [(none : Option Nat)] 1) s ∧ Completed s := by
  rintro ⟨s, hr, hc⟩
  have h := completed_state (inv_reachable hr) hc
  have hnod := (inv_reachable hr).nodest
  rw [h.2.2.2.1] at hnod
  simp at hnod

/-- C8 amended: when the source contains `None`, the consumer treats the
first dequeued `None` as the sentinel and stops, and once it has stopped the
destination equals the longest prefix of the source strictly before the first
`None`; but the run never terminates: no reachable state satisfies the
completion condition of `wait_completion` (the later puts are never
acknowledged, so the queue join blocks forever). -/
theorem claim8_amended (S : List (Option α)) (m : Int)
    (hS : (none : Option α) ∈ S) :
    (∀ s : PCState α, Reachable (init S m) s → ¬ Completed s) ∧
      (∀ s : PCState α, Reachable (init S m) s → s.cons = CState.done →
        s.destination = S.takeWhile (fun x => x.isSome)) := by
  constructor
  · intro s hr hc
    have h := completed_state (inv_reachable hr) hc
    have hnod := (inv_reachable hr).nodest
    rw [h.2.2.2.1] at hnod
    exact hnod hS
  · intro s hr hcons
    have h := inv_reachable hr
    have hcok := h.cok
    simp only [ConsOk, hcons] at hcok
    obtain ⟨r, hr2⟩ := getLog_extends h
    rw [hcok.1, List.append_assoc] at hr2
    have h3 : s.destination ++ (none :: r) = S ++ [none] := by
      simpa using hr2
    have h4 := takeWhile_of_append_none s.destination r h.nodest
    rw [h3, takeWhile_append_sentinel hS] at h4
    exact h4.symm

theorem claim8_amended_witness :
    (runTrace [Choice.prod, Choice.cons, Choice.cons]
        (init [(none : Option Nat)] 1)).destination
      = ([(none : Option Nat)]).takeWhile (fun x => x.isSome) :=
  (claim8_amended [(none : Option Nat)] 1 (by decide)).2
    (runTrace [Choice.prod, Choice.cons, Choice.cons]
      (init [(none : Option Nat)] 1))
    ⟨[Choice.prod, Choice.cons, Choice.cons], rfl⟩ (by decide)

/-- C9: at every reachable state of a run — not only at completion —
`items_consumed` equals the length of `destination_container`, because the
append and the counter increment happen in one lock-protected critical
section (one atomic step of the embedding). -/
theorem claim9_consumed_eq_destination (S : List (Option α)) (m : Int) :
    ∀ s : PCState α, Reachable (init S m) s →
      s.consumed = s.destination.length :=
  fun _ hr => (inv_reachable hr).ccount

theorem claim9_witness :
    (runTrace [Choice.prod, Choice.prod, Choice.cons, Choice.cons]
        (init [some (5 : Nat)] 3)).consumed
      = (runTrace [Choice.prod, Choice.prod, Choice.cons, Choice.cons]
          (init [some (5 : Nat)] 3)).destination.length :=
  claim9_consumed_eq_destination [some 5] 3
    (runTrace [Choice.prod, Choice.prod, Choice.cons, Choice.cons]
      (init [some (5 : Nat)] 3))
    ⟨[Choice.prod, Choice.prod, Choice.cons, Choice.cons], rfl⟩

/-- C10: the constructor snapshots `source_data` (`source_data.copy()`), so
the run operates on the construction-time value of the list: two pipelines
constructed from equal lists behave identically under every schedule — equal
destinations and equal counters — and hence no later mutation of the caller's
own list object can influence the result, which depends only on the
snapshotted value. -/
theorem claim10_snapshot (S1 S2 : List (Option α)) (m : Int)
    (tr : List Choice) (h : S1 = S2) :
    (runTrace tr (init S1 m)).destination
        = (runTrace tr (init S2 m)).destination ∧
      (runTrace tr (init S1 m)).produced = (runTrace tr (init S2 m)).produced ∧
      (runTrace tr (init S1 m)).consumed = (runTrace tr (init S2 m)).consumed := by
  subst h
  exact ⟨rfl, rfl, rfl⟩

theorem claim10_witness :
    (runTrace (sched [some 1]) (init [some (1 : Nat)] 2)).destination
      = (runTrace (sched [some 1]) (init [some (1 : Nat)] 2)).destination :=
  (claim10_snapshot [some 1] [some 1] 2 (sched [some 1]) rfl).1

end ProducerConsumer
